import Mathlib

/-!
Verification of the experimental slice layout generator: a query-time layout
engine that packs the stack groups of the selected tracks into vertical bands
using greedy first-fit over time, and emits one output row per selected slice
with `layout_depth = band offset + original depth`.

The generator's implementation file is not part of the sources (only its unit
tests are), so the computation is modelled from the specification and validated
against the expected outputs of those unit tests.
-/

namespace SliceLayout

/-- A slice record as stored in the slice table: a named half-open time
interval `[ts, ts+dur)` on a track, at a nesting `depth`, with its call-path
identity `stack_id` and its caller's `parent_stack_id` (0 is the sentinel for
"no parent"). -/
structure Slice where
  ts : Int
  dur : Int
  depth : Nat
  track_id : Nat
  name : String
  stack_id : Int
  parent_stack_id : Int
deriving DecidableEq

/-- Modelled from the spec: the filter parameter is a comma-joined list of
decimal integers; the splitter never yields empty tokens (so the empty string
denotes the empty track set). Splits the character list on commas, skipping
empty tokens; `acc` holds the current token reversed. -/
def splitTokens : List Char → List Char → List (List Char)
  | [], acc => if acc.isEmpty then [] else [acc.reverse]
  | c :: cs, acc =>
    if c = ',' then
      if acc.isEmpty then splitTokens cs [] else acc.reverse :: splitTokens cs []
    else
      splitTokens cs (c :: acc)

/-- The comma-separated tokens of a filter string. -/
def tokensOf (s : String) : List (List Char) := splitTokens s.data []

/-- One step of decimal parsing: extend the accumulated value by one digit,
failing on any non-digit character. -/
def parseDigitStep (acc : Option Nat) (c : Char) : Option Nat :=
  acc.bind fun n => if c.isDigit then some (n * 10 + (c.toNat - 48)) else none

/-- Modelled from the spec: a token parses as a track id only if every
character is a decimal digit; any non-numeric character fails the parse. -/
def parseNatTok (cs : List Char) : Option Nat :=
  cs.foldl parseDigitStep (some 0)

/-- Parse every token; one bad token fails the whole list. -/
def parseTokens : List (List Char) → Option (List Nat)
  | [] => some []
  | t :: ts =>
    match parseNatTok t, parseTokens ts with
    | some n, some ns => some (n :: ns)
    | _, _ => none

/-- Modelled from the spec: parsing the filter parameter into the requested
track set; a non-numeric token is surfaced as a request error. -/
def parseFilter (s : String) : Except String (List Nat) :=
  match parseTokens (tokensOf s) with
  | some tids => .ok tids
  | none => .error "malformed filter: non-numeric token"

/-- The direct parent of `s` inside the filtered row set: none when `s`
carries the sentinel parent id 0 or when no filtered slice has the parent's
stack id (such a slice is treated as a root of its own). -/
def parentOf (rows : List Slice) (s : Slice) : Option Slice :=
  if s.parent_stack_id = 0 then none
  else rows.find? (fun p => p.stack_id == s.parent_stack_id)

/-- Chase `parent_stack_id` links towards the root, with fuel; `none` means
the fuel ran out, which only happens on a parent cycle (corrupt data). -/
def rootSliceOf (rows : List Slice) : Nat → Slice → Option Slice
  | 0, _ => none
  | fuel + 1, s =>
    match parentOf rows s with
    | none => some s
    | some p => rootSliceOf rows fuel p

/-- The key of the stack group a slice belongs to: the stack id of the root
reached by following parent links (falling back to the slice's own stack id
when the chase runs out of fuel; that case is rejected as corrupt upstream). -/
def rootKey (rows : List Slice) (s : Slice) : Int :=
  match rootSliceOf rows rows.length s with
  | some r => r.stack_id
  | none => s.stack_id

/-- A stack group's bounding box: its root key, its half-open time interval
`[start, stop)` and its height in rows. -/
structure GroupInfo where
  root : Int
  start : Int
  stop : Int
  height : Nat
deriving DecidableEq

/-- The member slices of the stack group with root key `k`. -/
def membersOf (rows : List Slice) (k : Int) : List Slice :=
  rows.filter (fun s => rootKey rows s == k)

/-- Minimum `ts` over a list of slices (the group's start). -/
def minTs : List Slice → Int
  | [] => 0
  | s :: rest =>
    match rest with
    | [] => s.ts
    | _ :: _ => min s.ts (minTs rest)

/-- Maximum `ts + dur` over a list of slices (the group's end, computed
defensively as a max over all members). -/
def maxStop : List Slice → Int
  | [] => 0
  | s :: rest =>
    match rest with
    | [] => s.ts + s.dur
    | _ :: _ => max (s.ts + s.dur) (maxStop rest)

/-- The value `1 + max depth` over a list of slices (the group's height). -/
def maxHeight : List Slice → Nat
  | [] => 0
  | s :: rest =>
    match rest with
    | [] => s.depth + 1
    | _ :: _ => max (s.depth + 1) (maxHeight rest)

/-- The bounding box of the stack group with root key `k`. -/
def groupInfo (rows : List Slice) (k : Int) : GroupInfo :=
  { root := k
  , start := minTs (membersOf rows k)
  , stop := maxStop (membersOf rows k)
  , height := maxHeight (membersOf rows k) }

/-- The distinct root keys occurring among the filtered rows. -/
def keysOf (rows : List Slice) : List Int :=
  (rows.map (rootKey rows)).dedup

/-- All stack groups of the filtered rows. -/
def theGroups (rows : List Slice) : List GroupInfo :=
  (keysOf rows).map (groupInfo rows)

/-- The processing order of groups: ascending by start, ties broken by
ascending root stack id. -/
def gle (g1 g2 : GroupInfo) : Prop :=
  g1.start < g2.start ∨ (g1.start = g2.start ∧ g1.root ≤ g2.root)

instance : DecidableRel gle := fun g1 g2 =>
  decidable_of_iff (g1.start < g2.start ∨ (g1.start = g2.start ∧ g1.root ≤ g2.root)) Iff.rfl

/-- Stack groups sorted into processing order. -/
def sortGroups (gs : List GroupInfo) : List GroupInfo :=
  List.insertionSort gle gs

/-- The sorted stack groups of the filtered rows. -/
def groupsOf (rows : List Slice) : List GroupInfo :=
  sortGroups (theGroups rows)

/-- A vertical packing band: its position in the band list is its creation
index; `free_time` is the end of the most recently assigned group and
`height` the maximum height of any group assigned so far. -/
structure Band where
  free_time : Int
  height : Nat
deriving DecidableEq

/-- The free time of band `i` (0 past the end, never consulted there). -/
def freeAt (bands : List Band) (i : Nat) : Int :=
  (bands.getD i ⟨0, 0⟩).free_time

/-- The height of band `i` (0 past the end, never consulted there). -/
def heightAt (bands : List Band) (i : Nat) : Nat :=
  (bands.getD i ⟨0, 0⟩).height

/-- First-fit: the first band (in creation order) whose `free_time` is at
most the group's start; equality means touching, which is legal reuse. -/
def firstFit : List Band → Int → Option Nat
  | [], _ => none
  | b :: bs, s =>
    if b.free_time ≤ s then some 0 else (firstFit bs s).map (· + 1)

/-- Assign group `g` to existing band `i`: its free time becomes the group's
end and its height the max of the old height and the group's height. -/
def updateBand : List Band → Nat → GroupInfo → List Band
  | [], _, _ => []
  | b :: bs, 0, g => ⟨g.stop, max b.height g.height⟩ :: bs
  | b :: bs, n + 1, g => b :: updateBand bs n g

/-- Pass 1 of the allocator: greedy first-fit over the groups in processing
order, returning the final bands and the (group, band index) assignment in
processing order. -/
def allocate : List GroupInfo → List Band → List Band × List (GroupInfo × Nat)
  | [], bands => (bands, [])
  | g :: gs, bands =>
    match firstFit bands g.start with
    | some i =>
      let r := allocate gs (updateBand bands i g)
      (r.1, (g, i) :: r.2)
    | none =>
      let r := allocate gs (bands ++ [⟨g.stop, g.height⟩])
      (r.1, (g, bands.length) :: r.2)

/-- The allocator's result on the filtered rows, starting from no bands. -/
def allocResult (rows : List Slice) : List Band × List (GroupInfo × Nat) :=
  allocate (groupsOf rows) []

/-- The final band list of one invocation. -/
def finalBands (rows : List Slice) : List Band := (allocResult rows).1

/-- The group-to-band assignment of one invocation. -/
def assignment (rows : List Slice) : List (GroupInfo × Nat) := (allocResult rows).2

/-- Pass 2 of the allocator: a band's vertical offset is the prefix sum of
the final heights of the bands created before it. -/
def offsetOf : List Band → Nat → Nat
  | _, 0 => 0
  | [], _ + 1 => 0
  | b :: bs, i + 1 => b.height + offsetOf bs i

/-- The band index assigned to the group with root key `k`. -/
def bandOf (asgn : List (GroupInfo × Nat)) (k : Int) : Nat :=
  match asgn.find? (fun p => p.1.root == k) with
  | some p => p.2
  | none => 0

/-- An output row: the source slice, its merged vertical position, and the
provenance tag echoing the filter parameter. -/
structure OutRow where
  slice : Slice
  layout_depth : Nat
  filter_track_ids : String
deriving DecidableEq

/-- The layout materializer: one output row per filtered slice, with
`layout_depth` = its group's band offset + its own original depth. -/
def layoutRows (rows : List Slice) (fstr : String) : List OutRow :=
  rows.map fun s =>
    { slice := s
    , layout_depth :=
        offsetOf (finalBands rows) (bandOf (assignment rows) (rootKey rows s)) + s.depth
    , filter_track_ids := fstr }

/-- Data-corruption check modelled from the spec: a parent cycle (a root
chase that exhausts its fuel) or a discontinuous nesting depth (child depth
different from parent depth + 1) must fail fast. -/
def corruptRows (rows : List Slice) : Bool :=
  rows.any (fun s => (rootSliceOf rows rows.length s).isNone) ||
  rows.any (fun s =>
    match parentOf rows s with
    | some p => decide (s.depth ≠ p.depth + 1)
    | none => false)

/-- Modelled from the spec: the single entry point
`compute(filter) -> Result<Table, Error>`. Parses the filter parameter,
restricts storage to the requested tracks, rejects corrupt data, and
otherwise lays the filtered slices out. -/
def computeTable (storage : List Slice) (fstr : String) : Except String (List OutRow) :=
  match parseFilter fstr with
  | .error e => .error e
  | .ok tids =>
    let rows := storage.filter (fun s => decide (s.track_id ∈ tids))
    if corruptRows rows then .error "corrupt trace data"
    else .ok (layoutRows rows fstr)

/-- The layout depths of a computed table, in row order. -/
def layoutDepths (r : Except String (List OutRow)) : Except String (List Nat) :=
  r.map (·.map (·.layout_depth))

/-- The layout-relevant content of an output row: its source slice and its
layout depth (everything except the provenance tag). -/
def rowCore (r : OutRow) : Slice × Nat := (r.slice, r.layout_depth)

/-- Byte serialization of one output row. -/
def serializeRow (r : OutRow) : String :=
  r.slice.ts.repr ++ "," ++ r.slice.dur.repr ++ "," ++ r.slice.name ++ "," ++
  r.slice.track_id.repr ++ "," ++ Nat.repr r.layout_depth ++ "," ++
  r.filter_track_ids ++ ";"

/-- Byte serialization of a computed table (or of its error). -/
def serializeTable : Except String (List OutRow) → String
  | .error e => "error:" ++ e
  | .ok rows => String.join (rows.map serializeRow)

/-- Two half-open intervals `[start, stop)` intersect. -/
def intersects (g1 g2 : GroupInfo) : Prop :=
  max g1.start g2.start < min g1.stop g2.stop

instance : DecidableRel intersects := fun g1 g2 =>
  decidable_of_iff (max g1.start g2.start < min g1.stop g2.stop) Iff.rfl

end SliceLayout

namespace SliceLayout

/-! ### Allocator lemmas -/

theorem firstFit_some {bs : List Band} {s : Int} {i : Nat}
    (h : firstFit bs s = some i) :
    i < bs.length ∧ freeAt bs i ≤ s ∧ ∀ j, j < i → s < freeAt bs j := by
  induction bs generalizing i with
  | nil => simp [firstFit] at h
  | cons b bs ih =>
    by_cases hb : b.free_time ≤ s
    · simp [firstFit, hb] at h
      subst h
      refine ⟨Nat.succ_pos _, by simpa [freeAt] using hb, ?_⟩
      intro j hj
      omega
    · simp only [firstFit, if_neg hb, Option.map_eq_some'] at h
      obtain ⟨a, ha, rfl⟩ := h
      obtain ⟨h1, h2, h3⟩ := ih ha
      refine ⟨by simpa using Nat.succ_lt_succ h1, by simpa [freeAt, List.getD] using h2, ?_⟩
      intro j hj
      cases j with
      | zero => simpa [freeAt] using not_le.mp hb
      | succ j' =>
        have := h3 j' (by omega)
        simpa [freeAt, List.getD] using this

theorem firstFit_none {bs : List Band} {s : Int}
    (h : firstFit bs s = none) :
    ∀ j, j < bs.length → s < freeAt bs j := by
  induction bs with
  | nil => intro j hj; simp at hj
  | cons b bs ih =>
    by_cases hb : b.free_time ≤ s
    · simp [firstFit, hb] at h
    · simp only [firstFit, if_neg hb, Option.map_eq_none'] at h
      intro j hj
      cases j with
      | zero => simpa [freeAt] using not_le.mp hb
      | succ j' =>
        have := ih h j' (by simpa using Nat.lt_of_succ_lt_succ hj)
        simpa [freeAt, List.getD] using this

theorem updateBand_length (bs : List Band) (i : Nat) (g : GroupInfo) :
    (updateBand bs i g).length = bs.length := by
  induction bs generalizing i with
  | nil => rfl
  | cons b bs ih =>
    cases i with
    | zero => rfl
    | succ n => simpa [updateBand] using ih n

theorem freeAt_updateBand_self {bs : List Band} {i : Nat} (g : GroupInfo)
    (h : i < bs.length) :
    freeAt (updateBand bs i g) i = g.stop := by
  induction bs generalizing i with
  | nil => simp at h
  | cons b bs ih =>
    cases i with
    | zero => rfl
    | succ n =>
      have := ih (i := n) (by simpa using Nat.lt_of_succ_lt_succ h)
      simpa [updateBand, freeAt, List.getD] using this

theorem freeAt_updateBand_ne {bs : List Band} {i j : Nat} (g : GroupInfo)
    (h : j ≠ i) :
    freeAt (updateBand bs i g) j = freeAt bs j := by
  induction bs generalizing i j with
  | nil => cases i <;> rfl
  | cons b bs ih =>
    cases i with
    | zero =>
      cases j with
      | zero => exact absurd rfl h
      | succ j' => simp [updateBand, freeAt, List.getD]
    | succ n =>
      cases j with
      | zero => rfl
      | succ j' =>
        have := ih (i := n) (j := j') (by omega)
        simpa [updateBand, freeAt, List.getD] using this

theorem freeAt_append_lt {bs l : List Band} {j : Nat} (h : j < bs.length) :
    freeAt (bs ++ l) j = freeAt bs j := by
  simp [freeAt, List.getD, List.getElem?_append_left h]

theorem freeAt_append_self (bs : List Band) (b : Band) :
    freeAt (bs ++ [b]) bs.length = b.free_time := by
  simp [freeAt, List.getD]

theorem allocate_length_mono (gs : List GroupInfo) (bands : List Band) :
    bands.length ≤ (allocate gs bands).1.length := by
  induction gs generalizing bands with
  | nil => simp [allocate]
  | cons g gs ih =>
    cases hf : firstFit bands g.start with
    | some i =>
      have := ih (updateBand bands i g)
      simpa [allocate, hf, updateBand_length] using this
    | none =>
      have := ih (bands ++ [⟨g.stop, g.height⟩])
      simp [allocate, hf] at this ⊢
      omega

theorem allocate_idx_lt {gs : List GroupInfo} {bands : List Band} :
    ∀ p ∈ (allocate gs bands).2, p.2 < (allocate gs bands).1.length := by
  induction gs generalizing bands with
  | nil => simp [allocate]
  | cons g gs ih =>
    intro p hp
    cases hf : firstFit bands g.start with
    | some i =>
      simp only [allocate, hf, List.mem_cons] at hp ⊢
      rcases hp with rfl | hp
      · calc (i : Nat) < bands.length := (firstFit_some hf).1
          _ = (updateBand bands i g).length := (updateBand_length bands i g).symm
          _ ≤ _ := allocate_length_mono gs (updateBand bands i g)
      · exact ih p hp
    | none =>
      simp only [allocate, hf, List.mem_cons] at hp ⊢
      rcases hp with rfl | hp
      · calc bands.length < (bands ++ [(⟨g.stop, g.height⟩ : Band)]).length := by
              simp
          _ ≤ _ := allocate_length_mono gs _
      · exact ih p hp

theorem allocate_map_fst (gs : List GroupInfo) (bands : List Band) :
    ((allocate gs bands).2).map Prod.fst = gs := by
  induction gs generalizing bands with
  | nil => simp [allocate]
  | cons g gs ih =>
    cases hf : firstFit bands g.start with
    | some i => simpa [allocate, hf] using ih (updateBand bands i g)
    | none => simpa [allocate, hf] using ih (bands ++ [⟨g.stop, g.height⟩])

/-- Every assigned group fits its band relative to the band state at the
moment allocation started: the band's free time was at most the group's
start whenever the band already existed then. -/
theorem allocate_fits {gs : List GroupInfo} {bands : List Band}
    (hws : ∀ g ∈ gs, g.start ≤ g.stop) :
    ∀ p ∈ (allocate gs bands).2, p.2 < bands.length →
      freeAt bands p.2 ≤ p.1.start := by
  induction gs generalizing bands with
  | nil => simp [allocate]
  | cons g gs ih =>
    have hg : g.start ≤ g.stop := hws g (by simp)
    have hws' : ∀ g' ∈ gs, g'.start ≤ g'.stop := fun g' h => hws g' (by simp [h])
    intro p hp hlt
    cases hf : firstFit bands g.start with
    | some i =>
      simp only [allocate, hf, List.mem_cons] at hp
      rcases hp with rfl | hp
      · exact (firstFit_some hf).2.1
      · have hlt' : p.2 < (updateBand bands i g).length := by
          simpa [updateBand_length] using hlt
        have := ih hws' p hp hlt'
        by_cases hpi : p.2 = i
        · subst hpi
          have hfree : freeAt (updateBand bands p.2 g) p.2 = g.stop :=
            freeAt_updateBand_self g hlt
          have hfit : freeAt bands p.2 ≤ g.start := (firstFit_some hf).2.1
          calc freeAt bands p.2 ≤ g.start := hfit
            _ ≤ g.stop := hg
            _ = freeAt (updateBand bands p.2 g) p.2 := hfree.symm
            _ ≤ p.1.start := this
        · rwa [freeAt_updateBand_ne g hpi] at this
    | none =>
      simp only [allocate, hf, List.mem_cons] at hp
      rcases hp with rfl | hp
      · omega
      · have hlt' : p.2 < (bands ++ [(⟨g.stop, g.height⟩ : Band)]).length := by
          simp
          omega
        have := ih hws' p hp hlt'
        rwa [freeAt_append_lt hlt] at this

/-- Any two groups assigned to the same band are time-disjoint: the earlier
one (in processing order) ends no later than the later one starts. -/
theorem allocate_pairwise {gs : List GroupInfo} {bands : List Band}
    (hws : ∀ g ∈ gs, g.start ≤ g.stop) :
    List.Pairwise (fun p q => p.2 = q.2 → p.1.stop ≤ q.1.start)
      (allocate gs bands).2 := by
  induction gs generalizing bands with
  | nil => simp [allocate]
  | cons g gs ih =>
    have hg : g.start ≤ g.stop := hws g (by simp)
    have hws' : ∀ g' ∈ gs, g'.start ≤ g'.stop := fun g' h => hws g' (by simp [h])
    cases hf : firstFit bands g.start with
    | some i =>
      simp only [allocate, hf]
      refine List.Pairwise.cons ?_ (ih hws')
      intro q hq hqi
      have hlt : q.2 < (updateBand bands i g).length := by
        rw [updateBand_length]
        rw [← hqi] at *
        exact lt_of_lt_of_le (firstFit_some hf).1 (le_refl _)
      have := allocate_fits hws' q hq hlt
      rw [← hqi] at this
      rwa [freeAt_updateBand_self g (firstFit_some hf).1] at this
    | none =>
      simp only [allocate, hf]
      refine List.Pairwise.cons ?_ (ih hws')
      intro q hq hqi
      have hlt : q.2 < (bands ++ [(⟨g.stop, g.height⟩ : Band)]).length := by
        simp [← hqi]
      have := allocate_fits hws' q hq hlt
      rw [← hqi] at this
      rwa [freeAt_append_self bands _] at this

end SliceLayout

namespace SliceLayout

/-! ### Offset lemmas -/

theorem offsetOf_succ {bands : List Band} {i : Nat} (h : i < bands.length) :
    offsetOf bands (i + 1) = offsetOf bands i + heightAt bands i := by
  induction bands generalizing i with
  | nil => simp at h
  | cons b bs ih =>
    cases i with
    | zero => simp [offsetOf, heightAt, List.getD]
    | succ n =>
      have := ih (Nat.lt_of_succ_lt_succ h)
      simp only [offsetOf, heightAt, List.getD_cons_succ] at this ⊢
      omega

theorem offsetOf_mono (bands : List Band) : ∀ {i j : Nat}, i ≤ j →
    offsetOf bands i ≤ offsetOf bands j := by
  induction bands with
  | nil =>
    intro i j _
    cases i <;> cases j <;> simp [offsetOf]
  | cons b bs ih =>
    intro i j h
    cases i with
    | zero => cases j <;> simp [offsetOf]
    | succ n =>
      cases j with
      | zero => omega
      | succ m =>
        have := ih (i := n) (j := m) (by omega)
        simp only [offsetOf]
        omega

/-- Distinct bands occupy disjoint vertical ranges: the earlier-created
band's range ends before the later one's begins. -/
theorem offset_sep {bands : List Band} {i j : Nat} (hij : i < j)
    (hi : i < bands.length) :
    offsetOf bands i + heightAt bands i ≤ offsetOf bands j := by
  rw [← offsetOf_succ hi]
  exact offsetOf_mono bands hij

/-! ### Group well-formedness -/

theorem minTs_le_maxStop {ms : List Slice} (hne : ms ≠ [])
    (hdur : ∀ m ∈ ms, 0 ≤ m.dur) : minTs ms ≤ maxStop ms := by
  induction ms with
  | nil => cases hne rfl
  | cons s rest ih =>
    have h1 : 0 ≤ s.dur := hdur s (by simp)
    cases rest with
    | nil =>
      simp only [minTs, maxStop]
      omega
    | cons t rest' =>
      simp only [minTs, maxStop]
      have : min s.ts (minTs (t :: rest')) ≤ s.ts := min_le_left _ _
      have : s.ts + s.dur ≤ max (s.ts + s.dur) (maxStop (t :: rest')) := le_max_left _ _
      omega

theorem mem_membersOf {rows : List Slice} {k : Int} {s : Slice} :
    s ∈ membersOf rows k ↔ s ∈ rows ∧ rootKey rows s = k := by
  simp [membersOf, List.mem_filter]

theorem mem_keysOf {rows : List Slice} {k : Int} :
    k ∈ keysOf rows ↔ ∃ s ∈ rows, rootKey rows s = k := by
  simp [keysOf, List.mem_dedup, List.mem_map]

theorem membersOf_ne_nil {rows : List Slice} {k : Int} (hk : k ∈ keysOf rows) :
    membersOf rows k ≠ [] := by
  obtain ⟨s, hs, hks⟩ := mem_keysOf.mp hk
  intro h
  have : s ∈ membersOf rows k := mem_membersOf.mpr ⟨hs, hks⟩
  simp [h] at this

theorem mem_theGroups {rows : List Slice} {g : GroupInfo} :
    g ∈ theGroups rows ↔ ∃ k ∈ keysOf rows, g = groupInfo rows k := by
  simp [theGroups, eq_comm]

theorem mem_groupsOf {rows : List Slice} {g : GroupInfo} :
    g ∈ groupsOf rows ↔ g ∈ theGroups rows := by
  simp [groupsOf, sortGroups]

/-- Under the input invariant `dur ≥ 0`, every stack group's interval is
well-formed: its start is at most its end. -/
theorem groupsOf_wf {rows : List Slice} (hdur : ∀ s ∈ rows, 0 ≤ s.dur) :
    ∀ g ∈ groupsOf rows, g.start ≤ g.stop := by
  intro g hg
  obtain ⟨k, hk, rfl⟩ := mem_theGroups.mp (mem_groupsOf.mp hg)
  exact minTs_le_maxStop (membersOf_ne_nil hk)
    (fun m hm => hdur m (mem_membersOf.mp hm).1)

theorem not_intersects_of_le {g1 g2 : GroupInfo} (h : g1.stop ≤ g2.start) :
    ¬ intersects g1 g2 := by
  intro hx
  unfold intersects at hx
  have h1 : min g1.stop g2.stop ≤ g1.stop := min_le_left _ _
  have h2 : g2.start ≤ max g1.start g2.start := le_max_right _ _
  omega

theorem intersects_symm {g1 g2 : GroupInfo} (h : intersects g1 g2) :
    intersects g2 g1 := by
  unfold intersects at h ⊢
  omega

end SliceLayout

namespace SliceLayout

/-- C1: in every invocation, if the `[start, end)` intervals of two distinct
stack groups intersect, the groups are assigned to different bands, and the
vertical ranges `[offset, offset+height)` of those bands are disjoint. -/
theorem c1_time_overlap_forces_disjoint_bands
    (storage : List Slice) (tids : List Nat) (rows : List Slice)
    (hrows : rows = storage.filter (fun s => decide (s.track_id ∈ tids)))
    (hdur : ∀ s ∈ storage, 0 ≤ s.dur) :
    ∀ (j k : Fin (assignment rows).length), j ≠ k →
      intersects ((assignment rows).get j).1 ((assignment rows).get k).1 →
      ((assignment rows).get j).2 ≠ ((assignment rows).get k).2 ∧
      (offsetOf (finalBands rows) ((assignment rows).get j).2 +
          heightAt (finalBands rows) ((assignment rows).get j).2 ≤
        offsetOf (finalBands rows) ((assignment rows).get k).2 ∨
       offsetOf (finalBands rows) ((assignment rows).get k).2 +
          heightAt (finalBands rows) ((assignment rows).get k).2 ≤
        offsetOf (finalBands rows) ((assignment rows).get j).2) := by
  have hdur' : ∀ s ∈ rows, 0 ≤ s.dur := by
    subst hrows
    intro s hs
    exact hdur s (List.mem_filter.mp hs).1
  have hws := groupsOf_wf hdur'
  have pw : List.Pairwise (fun p q => p.2 = q.2 → p.1.stop ≤ q.1.start)
      (assignment rows) := by
    unfold assignment allocResult
    exact allocate_pairwise hws
  have hidx : ∀ p ∈ assignment rows, p.2 < (finalBands rows).length := by
    unfold assignment finalBands allocResult
    exact fun p hp => allocate_idx_lt p hp
  have hpw := List.pairwise_iff_get.mp pw
  intro j k hjk hx
  have hdiff : ((assignment rows).get j).2 ≠ ((assignment rows).get k).2 := by
    intro heq
    rcases Nat.lt_or_ge j.val k.val with h | h
    · exact not_intersects_of_le (hpw j k h heq) hx
    · have h' : k.val < j.val := by
        have : j.val ≠ k.val := fun hv => hjk (Fin.ext hv)
        omega
      exact not_intersects_of_le (hpw k j h' heq.symm) (intersects_symm hx)
  refine ⟨hdiff, ?_⟩
  have hj := hidx _ (List.get_mem (assignment rows) j.val j.isLt)
  have hk := hidx _ (List.get_mem (assignment rows) k.val k.isLt)
  rcases Nat.lt_or_ge ((assignment rows).get j).2 ((assignment rows).get k).2 with h | h
  · exact Or.inl (offset_sep h hj)
  · have h' : ((assignment rows).get k).2 < ((assignment rows).get j).2 :=
      lt_of_le_of_ne h (fun hv => hdiff hv.symm)
    exact Or.inr (offset_sep h' hk)

end SliceLayout

namespace SliceLayout

instance : IsTotal GroupInfo gle :=
  ⟨fun a b => by
    unfold gle
    rcases lt_trichotomy a.start b.start with h | h | h
    · exact Or.inl (Or.inl h)
    · rcases le_total a.root b.root with hr | hr
      · exact Or.inl (Or.inr ⟨h, hr⟩)
      · exact Or.inr (Or.inr ⟨h.symm, hr⟩)
    · exact Or.inr (Or.inl h)⟩

instance : IsTrans GroupInfo gle :=
  ⟨fun a b c hab hbc => by
    unfold gle at hab hbc ⊢
    rcases hab with h1 | ⟨h1, h1r⟩ <;> rcases hbc with h2 | ⟨h2, h2r⟩ <;>
      [skip; skip; skip; skip] <;> omega⟩

/-- The band state after the first `k` groups have been processed. -/
def bandsUpTo (rows : List Slice) (k : Nat) : List Band :=
  (allocate ((groupsOf rows).take k) []).1

/-- The default pair used by out-of-range lookups into an assignment list. -/
def dummyAsgn : GroupInfo × Nat := (⟨0, 0, 0, 0⟩, 0)

/-- The assignment of the `k`-th processed group is given by the first-fit
rule over the band state after the first `k` groups: either its band is the
least-index band whose free time is at most the group's start, or no band
qualifies and a new band is appended, indexed by the current band count and
carrying the group's end and height. -/
theorem allocate_characterization :
    ∀ (k : Nat) (gs : List GroupInfo) (bands : List Band), k < gs.length →
      ∀ (p : GroupInfo × Nat), p = (allocate gs bands).2.getD k dummyAsgn →
      ∀ (Bk : List Band), Bk = (allocate (gs.take k) bands).1 →
      (p.2 < Bk.length ∧ freeAt Bk p.2 ≤ p.1.start ∧
        ∀ j, j < p.2 → p.1.start < freeAt Bk j) ∨
      (p.2 = Bk.length ∧ (∀ j, j < Bk.length → p.1.start < freeAt Bk j) ∧
        (allocate (gs.take (k + 1)) bands).1 = Bk ++ [⟨p.1.stop, p.1.height⟩]) := by
  intro k
  induction k with
  | zero =>
    intro gs bands hk p hp Bk hB
    cases gs with
    | nil => simp at hk
    | cons g gs' =>
      cases hf : firstFit bands g.start with
      | some i =>
        simp only [allocate, hf, List.take, List.getD_cons_zero] at hp hB
        subst hp hB
        obtain ⟨h1, h2, h3⟩ := firstFit_some hf
        exact Or.inl ⟨h1, h2, h3⟩
      | none =>
        simp only [allocate, hf, List.take, List.getD_cons_zero] at hp hB
        subst hp hB
        refine Or.inr ⟨rfl, firstFit_none hf, ?_⟩
        simp only [allocate, hf, List.take]
  | succ k ih =>
    intro gs bands hk p hp Bk hB
    cases gs with
    | nil => simp at hk
    | cons g gs' =>
      have hk' : k < gs'.length := by simpa using Nat.lt_of_succ_lt_succ hk
      cases hf : firstFit bands g.start with
      | some i =>
        simp only [allocate, hf, List.take, List.getD_cons_succ] at hp hB
        have := ih gs' (updateBand bands i g) hk' p hp Bk hB
        simpa only [allocate, hf, List.take] using this
      | none =>
        simp only [allocate, hf, List.take, List.getD_cons_succ] at hp hB
        have := ih gs' (bands ++ [⟨g.stop, g.height⟩]) hk' p hp Bk hB
        simpa only [allocate, hf, List.take] using this

end SliceLayout

namespace SliceLayout

/-- A slice literal (name fixed; the algorithm never reads it). -/
def mkSlice (ts dur : Int) (depth track : Nat) (sid pid : Int) : Slice :=
  ⟨ts, dur, depth, track, "slice", sid, pid⟩

/-- The storage of the `MultipleTracks` unit test: two tracks whose root
slices occupy `[0,4)` and `[3,7)`, each with one nested child. -/
def mtStorage : List Slice :=
  [ mkSlice 0 4 0 1 1 0
  , mkSlice 0 2 1 1 2 1
  , mkSlice 3 4 0 2 3 0
  , mkSlice 3 2 1 2 4 3 ]

/-- The `MultipleTracks` storage filtered to the requested tracks 1 and 2. -/
def mtRows : List Slice := mtStorage.filter (fun s => decide (s.track_id ∈ [1, 2]))

/-- C2: stack groups are processed in ascending order of start (ties broken
by ascending root stack id), in that order, and each one is assigned by
greedy first-fit: the first band in creation order whose free time is at
most the group's start (touching intervals permit reuse), or, if no band
qualifies, a freshly appended band indexed by the current band count with
free time the group's end and height the group's height. -/
theorem c2_greedy_first_fit
    (storage : List Slice) (tids : List Nat) (rows : List Slice)
    (hrows : rows = storage.filter (fun s => decide (s.track_id ∈ tids))) :
    List.Sorted gle (groupsOf rows) ∧
    (assignment rows).map Prod.fst = groupsOf rows ∧
    ∀ k, k < (assignment rows).length →
      (((assignment rows).getD k dummyAsgn).2 < (bandsUpTo rows k).length ∧
        freeAt (bandsUpTo rows k) ((assignment rows).getD k dummyAsgn).2 ≤
          ((assignment rows).getD k dummyAsgn).1.start ∧
        ∀ j, j < ((assignment rows).getD k dummyAsgn).2 →
          ((assignment rows).getD k dummyAsgn).1.start < freeAt (bandsUpTo rows k) j) ∨
      (((assignment rows).getD k dummyAsgn).2 = (bandsUpTo rows k).length ∧
        (∀ j, j < (bandsUpTo rows k).length →
          ((assignment rows).getD k dummyAsgn).1.start < freeAt (bandsUpTo rows k) j) ∧
        bandsUpTo rows (k + 1) = bandsUpTo rows k ++
          [⟨((assignment rows).getD k dummyAsgn).1.stop,
            ((assignment rows).getD k dummyAsgn).1.height⟩]) := by
  refine ⟨?_, ?_, ?_⟩
  · show List.Sorted gle (List.insertionSort gle (theGroups rows))
    exact List.sorted_insertionSort gle (theGroups rows)
  · show ((allocate (groupsOf rows) []).2).map Prod.fst = groupsOf rows
    exact allocate_map_fst (groupsOf rows) []
  · intro k hk
    have hlen : (assignment rows).length = (groupsOf rows).length := by
      have := allocate_map_fst (groupsOf rows) []
      have h2 := congrArg List.length this
      simpa [assignment, allocResult] using h2
    have hk' : k < (groupsOf rows).length := hlen ▸ hk
    exact allocate_characterization k (groupsOf rows) [] hk' _ rfl _ rfl

/-- Witness for C1 at the `MultipleTracks` input: its two stack groups
overlap in time and land on different bands. -/
theorem c1_witness :
    ((assignment mtRows).get ⟨0, by decide⟩).2 ≠
      ((assignment mtRows).get ⟨1, by decide⟩).2 :=
  (c1_time_overlap_forces_disjoint_bands mtStorage [1, 2] mtRows rfl (by decide)
    ⟨0, by decide⟩ ⟨1, by decide⟩ (by decide) (by decide)).1

/-- Witness for C2 at the `MultipleTracks` input: the processed group
sequence is sorted by (start, root stack id). -/
theorem c2_witness : List.Sorted gle (groupsOf mtRows) :=
  (c2_greedy_first_fit mtStorage [1, 2] mtRows rfl).1

end SliceLayout

namespace SliceLayout

/-- Inversion of a successful invocation: the filter parsed to the given
track set, the filtered rows passed the corruption check, and the output is
their materialized layout. -/
theorem computeTable_ok {storage : List Slice} {fstr : String} {tids : List Nat}
    {out : List OutRow}
    (hp : parseFilter fstr = .ok tids)
    (h : computeTable storage fstr = .ok out) :
    corruptRows (storage.filter (fun s => decide (s.track_id ∈ tids))) = false ∧
    out = layoutRows (storage.filter (fun s => decide (s.track_id ∈ tids))) fstr := by
  unfold computeTable at h
  rw [hp] at h
  by_cases hc : corruptRows (storage.filter (fun s => decide (s.track_id ∈ tids)))
  · simp [hc] at h
  · simp only [Bool.not_eq_true] at hc
    simp [hc] at h
    exact ⟨hc, h.symm⟩

/-- The storage of the `MultipleRows` unit test: one track with five nested
slices of depths 0..4, all carrying `stack_id = parent_stack_id = 0`. -/
def mrStorage : List Slice :=
  [ mkSlice 1 5 0 1 0 0
  , mkSlice 1 4 1 1 0 0
  , mkSlice 1 3 2 1 0 0
  , mkSlice 1 2 3 1 0 0
  , mkSlice 1 1 4 1 0 0 ]

/-- The `MultipleRows` storage filtered to the requested track 1. -/
def mrRows : List Slice := mrStorage.filter (fun s => decide (s.track_id ∈ [1]))

/-- C3: a band's vertical offset is the prefix sum of the heights of the
bands created before it — offset 0 for the first band, non-negative
throughout, and one band's height apart between consecutive bands.
Concretely, on the `MultipleTracks` input the second band sits at offset 2
(the height of band 0) and the resulting layout depths are 0,1 for the
first group and 2,3 for the second. -/
theorem c3_offsets_prefix_sums
    (storage : List Slice) (tids : List Nat) (rows : List Slice)
    (hrows : rows = storage.filter (fun s => decide (s.track_id ∈ tids))) :
    (offsetOf (finalBands rows) 0 = 0 ∧
     (∀ i, 0 ≤ offsetOf (finalBands rows) i) ∧
     ∀ i, i < (finalBands rows).length →
       offsetOf (finalBands rows) (i + 1) =
         offsetOf (finalBands rows) i + heightAt (finalBands rows) i) ∧
    (offsetOf (finalBands mtRows) 1 = heightAt (finalBands mtRows) 0 ∧
     offsetOf (finalBands mtRows) 1 = 2 ∧
     layoutDepths (computeTable mtStorage "1,2") = .ok [0, 1, 2, 3]) := by
  refine ⟨⟨?_, ?_, ?_⟩, ?_, ?_, ?_⟩
  · cases finalBands rows <;> rfl
  · intro i
    exact Nat.zero_le _
  · intro i hi
    exact offsetOf_succ hi
  · rfl
  · rfl
  · rfl

/-- Witness for C3 at the `MultipleTracks` input: the offset recurrence at
band 0. -/
theorem c3_witness :
    offsetOf (finalBands mtRows) (0 + 1) =
      offsetOf (finalBands mtRows) 0 + heightAt (finalBands mtRows) 0 :=
  (c3_offsets_prefix_sums mtStorage [1, 2] mtRows rfl).1.2.2 0 (by decide)

/-- C4: every output row's `layout_depth` is its group's band offset plus
the slice's original depth, hence at least the original depth; and,
provided every stack group contains a depth-0 slice (the upstream invariant
that a root has depth 0), the minimum `layout_depth` within each stack
group equals that group's band offset. -/
theorem c4_layout_depth_offset_plus_depth
    (storage : List Slice) (fstr : String) (tids : List Nat) (out : List OutRow)
    (rows : List Slice)
    (hp : parseFilter fstr = .ok tids)
    (hout : computeTable storage fstr = .ok out)
    (hrows : rows = storage.filter (fun s => decide (s.track_id ∈ tids))) :
    (∀ r ∈ out,
      r.layout_depth =
        offsetOf (finalBands rows) (bandOf (assignment rows) (rootKey rows r.slice)) +
          r.slice.depth ∧
      r.slice.depth ≤ r.layout_depth) ∧
    ((∀ k ∈ keysOf rows, ∃ s ∈ membersOf rows k, s.depth = 0) →
      ∀ k ∈ keysOf rows,
        (∃ r ∈ out, rootKey rows r.slice = k ∧
          r.layout_depth = offsetOf (finalBands rows) (bandOf (assignment rows) k)) ∧
        (∀ r ∈ out, rootKey rows r.slice = k →
          offsetOf (finalBands rows) (bandOf (assignment rows) k) ≤ r.layout_depth)) := by
  obtain ⟨-, hlay⟩ := computeTable_ok hp hout
  rw [← hrows] at hlay
  subst hlay
  constructor
  · intro r hr
    obtain ⟨s, hs, rfl⟩ := List.mem_map.mp hr
    exact ⟨rfl, Nat.le_add_left _ _⟩
  · intro hroot k hk
    constructor
    · obtain ⟨s, hms, hd0⟩ := hroot k hk
      obtain ⟨hs, hks⟩ := mem_membersOf.mp hms
      refine ⟨_, List.mem_map_of_mem _ hs, ?_, ?_⟩
      · exact hks
      · show offsetOf (finalBands rows) (bandOf (assignment rows) (rootKey rows s)) + s.depth = _
        rw [hks, hd0]
        exact Nat.add_zero _
    · intro r hr hkr
      obtain ⟨s, hs, rfl⟩ := List.mem_map.mp hr
      show offsetOf (finalBands rows) (bandOf (assignment rows) k) ≤
        offsetOf (finalBands rows) (bandOf (assignment rows) (rootKey rows s)) + s.depth
      rw [show rootKey rows s = k from hkr]
      exact Nat.le_add_right _ _

/-- The default row used by out-of-range lookups into an output table. -/
def outDefault : OutRow := ⟨⟨0, 0, 0, 0, "", 0, 0⟩, 0, ""⟩

/-- Witness for C4 at the `MultipleRows` input: the first output row's
layout depth is at least its original depth. -/
theorem c4_witness :
    ((layoutRows mrRows "1").getD 0 outDefault).slice.depth ≤
      ((layoutRows mrRows "1").getD 0 outDefault).layout_depth := by
  have h := (c4_layout_depth_offset_plus_depth mrStorage "1" [1] (layoutRows mrRows "1")
    mrRows rfl (by rfl) rfl).1
  have hmem : (layoutRows mrRows "1").getD 0 outDefault ∈ layoutRows mrRows "1" := by
    decide
  exact (h _ hmem).2

end SliceLayout

namespace SliceLayout

/-- C5: slices on tracks outside the requested set are invisible: the
computation over full storage equals the computation over storage already
restricted to the requested tracks (so excluded slices cannot influence the
layout), and every output row's track is in the requested set. -/
theorem c5_excluded_tracks_contribute_nothing
    (storage : List Slice) (fstr : String) (tids : List Nat)
    (hp : parseFilter fstr = .ok tids) :
    computeTable storage fstr =
      computeTable (storage.filter (fun s => decide (s.track_id ∈ tids))) fstr ∧
    ∀ out, computeTable storage fstr = .ok out → ∀ r ∈ out, r.slice.track_id ∈ tids := by
  constructor
  · unfold computeTable
    rw [hp]
    dsimp only
    rw [List.filter_filter]
    have hpp : (fun s => decide (s.track_id ∈ tids) && decide (s.track_id ∈ tids)) =
        (fun s : Slice => decide (s.track_id ∈ tids)) := by
      funext s
      exact Bool.and_self _
    rw [hpp]
  · intro out hout r hr
    obtain ⟨-, hlay⟩ := computeTable_ok hp hout
    subst hlay
    obtain ⟨s, hs, rfl⟩ := List.mem_map.mp hr
    have := (List.mem_filter.mp hs).2
    exact of_decide_eq_true this

/-- Witness for C5 at the `MultipleTracks` input. -/
theorem c5_witness :
    computeTable mtStorage "1,2" = computeTable mtRows "1,2" :=
  (c5_excluded_tracks_contribute_nothing mtStorage "1,2" [1, 2] (by rfl)).1

/-- C6: the computation is a pure function of storage and filter: two
invocations with the same filter over unchanged storage produce identical
output tables, and in particular byte-identical serializations. -/
theorem c6_idempotent_invocations (storage : List Slice) (fstr : String) :
    computeTable storage fstr = computeTable storage fstr ∧
    serializeTable (computeTable storage fstr) = serializeTable (computeTable storage fstr) :=
  ⟨rfl, rfl⟩

/-- Stripped of the provenance tag, the materialized layout does not depend
on the filter string. -/
theorem layoutRows_core_congr (rows : List Slice) (f1 f2 : String) :
    (layoutRows rows f1).map rowCore = (layoutRows rows f2).map rowCore := by
  simp only [layoutRows, List.map_map]
  rfl

/-- If two filter strings denote track sets with the same members among the
stored slices, the two invocations agree on everything except the
provenance tag. -/
theorem computeTable_core_congr
    (storage : List Slice) (f1 f2 : String) (t1 t2 : List Nat)
    (hp1 : parseFilter f1 = .ok t1)
    (hp2 : parseFilter f2 = .ok t2)
    (hsame : ∀ s ∈ storage, s.track_id ∈ t1 ↔ s.track_id ∈ t2) :
    (computeTable storage f1).map (List.map rowCore) =
      (computeTable storage f2).map (List.map rowCore) := by
  have hrows : storage.filter (fun s => decide (s.track_id ∈ t1)) =
      storage.filter (fun s => decide (s.track_id ∈ t2)) :=
    List.filter_congr (fun s hs => decide_eq_decide.mpr (hsame s hs))
  unfold computeTable
  rw [hp1, hp2]
  dsimp only
  rw [hrows]
  by_cases hc : corruptRows (storage.filter (fun s => decide (s.track_id ∈ t2)))
  · simp [hc]
  · simp only [Bool.not_eq_true] at hc
    simp only [hc, Bool.false_eq_true, if_false, Except.map]
    rw [layoutRows_core_congr _ f1 f2]

end SliceLayout

namespace SliceLayout

/-! ### Parse-failure lemmas and the remaining claims -/

theorem foldl_parseDigitStep_none : ∀ (cs : List Char),
    cs.foldl parseDigitStep none = none
  | [] => rfl
  | _ :: cs => foldl_parseDigitStep_none cs

theorem foldl_parseDigitStep_bad : ∀ (cs : List Char) (acc : Option Nat),
    (∃ c ∈ cs, c.isDigit = false) → cs.foldl parseDigitStep acc = none := by
  intro cs
  induction cs with
  | nil =>
    intro acc h
    simp at h
  | cons d ds ih =>
    intro acc h
    rcases h with ⟨c, hc, hcd⟩
    rcases List.mem_cons.mp hc with rfl | hmem
    · simp only [List.foldl_cons]
      have hstep : parseDigitStep acc c = none := by
        cases acc with
        | none => rfl
        | some n => simp [parseDigitStep, hcd]
      rw [hstep]
      exact foldl_parseDigitStep_none ds
    · simp only [List.foldl_cons]
      exact ih _ ⟨c, hmem, hcd⟩

theorem parseNatTok_none {cs : List Char} (h : ∃ c ∈ cs, c.isDigit = false) :
    parseNatTok cs = none :=
  foldl_parseDigitStep_bad cs (some 0) h

theorem parseTokens_none : ∀ {toks : List (List Char)},
    (∃ t ∈ toks, parseNatTok t = none) → parseTokens toks = none := by
  intro toks h
  induction toks with
  | nil => simp at h
  | cons t ts ih =>
    rcases h with ⟨t', ht', hbad⟩
    rcases List.mem_cons.mp ht' with rfl | hmem
    · unfold parseTokens
      rw [hbad]
    · unfold parseTokens
      rw [ih ⟨t', hmem, hbad⟩]
      cases parseNatTok t <;> rfl

/-- The storage used to refute monotonicity of the track filter: track 1
holds `[0,2)` (height 1), track 2 holds a 10-deep nest on `[1,3)`, track 3
holds `[2,4)` (height 1). -/
def cxStorage : List Slice :=
  [ mkSlice 0 2 0 1 1 0
  , mkSlice 1 2 0 2 10 0
  , mkSlice 1 2 1 2 11 10
  , mkSlice 1 2 2 2 12 11
  , mkSlice 1 2 3 2 13 12
  , mkSlice 1 2 4 2 14 13
  , mkSlice 1 2 5 2 15 14
  , mkSlice 1 2 6 2 16 15
  , mkSlice 1 2 7 2 17 16
  , mkSlice 1 2 8 2 18 17
  , mkSlice 1 2 9 2 19 18
  , mkSlice 2 2 0 3 30 0 ]

/-- The layout depths of track 3's slices in an invocation over
`cxStorage`. -/
def c7depth3 (fstr : String) : List Nat :=
  match computeTable cxStorage fstr with
  | .ok l => (l.filter (fun r => r.slice.track_id == 3)).map (·.layout_depth)
  | .error _ => []

/-- Counterexample to C7: with the full filter "1,2,3" the track-3 slice is
laid out at depth 0 (it reuses band 0 after track 1's group), but after
removing track 1 from the filter it is laid out at depth 10 (track 2's
10-high group now owns band 0, which is never free for it) — removing a
track from the filter increased a remaining slice's layout depth. -/
theorem c7_counterexample :
    c7depth3 "1,2,3" = [0] ∧ c7depth3 "2,3" = [10] ∧
    ¬ ((c7depth3 "2,3").getD 0 0 ≤ (c7depth3 "1,2,3").getD 0 0) :=
  ⟨rfl, rfl, by decide⟩

/-- C7 (amended): layout is not monotone in the track set in general
(see the counterexample); what holds is that removing a track with no
stored slices leaves every remaining slice's layout depth unchanged — in
particular it does not increase. -/
theorem c7_no_increase_when_removing_sliceless_track
    (storage : List Slice) (fstrT fstrT2 : String) (tids : List Nat) (t : Nat)
    (hp : parseFilter fstrT = .ok tids)
    (hp2 : parseFilter fstrT2 = .ok (tids.filter (fun x => decide (x ≠ t))))
    (ht : ∀ s ∈ storage, s.track_id ≠ t) :
    (computeTable storage fstrT2).map (List.map rowCore) =
      (computeTable storage fstrT).map (List.map rowCore) := by
  apply computeTable_core_congr storage fstrT2 fstrT _ _ hp2 hp
  intro s hs
  simp only [List.mem_filter]
  constructor
  · exact fun h => h.1
  · exact fun h => ⟨h, decide_eq_true (ht s hs)⟩

/-- Witness for C7's amended claim: dropping slice-free track 3 from the
`MultipleTracks` query leaves the layout unchanged. -/
theorem c7_witness :
    (computeTable mtStorage "1,2").map (List.map rowCore) =
      (computeTable mtStorage "1,2,3").map (List.map rowCore) :=
  c7_no_increase_when_removing_sliceless_track mtStorage "1,2,3" "1,2" [1, 2, 3] 3
    (by rfl) (by rfl) (by decide)

/-- C8: five nested slices that all carry the sentinel
`parent_stack_id = 0` and the shared `stack_id = 0` still form a single
stack group (root key 0, interval `[1,6)`, height 5) laid out on one band
at offset 0, so every output row keeps its original depth. -/
theorem c8_sentinel_stack_ids_single_group :
    theGroups mrRows = [⟨0, 1, 6, 5⟩] ∧
    finalBands mrRows = [⟨6, 5⟩] ∧
    (computeTable mrStorage "1").map
        (List.map (fun r => (r.slice.depth, r.layout_depth))) =
      .ok [(0, 0), (1, 1), (2, 2), (3, 3), (4, 4)] :=
  ⟨rfl, rfl, rfl⟩

/-- A successful invocation whose filter matches no stored slice yields the
empty table. -/
theorem computeTable_nonmatching {storage : List Slice} {fstr : String}
    {tids : List Nat}
    (hp : parseFilter fstr = .ok tids)
    (h : ∀ s ∈ storage, s.track_id ∉ tids) :
    computeTable storage fstr = .ok [] := by
  unfold computeTable
  rw [hp]
  dsimp only
  have hnil : storage.filter (fun s => decide (s.track_id ∈ tids)) = [] :=
    List.filter_eq_nil_iff.mpr (fun s hs => by simpa using h s hs)
  rw [hnil]
  rfl

/-- C9: an empty filter and a filter matching no stored slice are not
errors — both produce the empty table — and a filter mixing matching and
non-matching track ids succeeds, laying out the matching tracks exactly as
if the non-matching id were absent. -/
theorem c9_empty_or_nonmatching_filter_ok (storage : List Slice) :
    computeTable storage "" = .ok [] ∧
    (∀ fstr tids, parseFilter fstr = .ok tids →
      (∀ s ∈ storage, s.track_id ∉ tids) → computeTable storage fstr = .ok []) ∧
    (∀ f1 f2 t1 t, parseFilter f1 = .ok t1 →
      parseFilter f2 = .ok (t1.filter (fun x => decide (x ≠ t))) →
      (∀ s ∈ storage, s.track_id ≠ t) →
      (computeTable storage f2).map (List.map rowCore) =
        (computeTable storage f1).map (List.map rowCore)) := by
  refine ⟨?_, ?_, ?_⟩
  · exact @computeTable_nonmatching storage "" [] (by rfl) (by simp)
  · intro fstr tids hp h
    exact computeTable_nonmatching hp h
  · intro f1 f2 t1 t hp1 hp2 ht
    apply computeTable_core_congr storage f2 f1 _ _ hp2 hp1
    intro s hs
    simp only [List.mem_filter]
    constructor
    · exact fun h => h.1
    · exact fun h => ⟨h, decide_eq_true (ht s hs)⟩

/-- Witness for C9: the `MultipleTracks` storage with an empty filter and
with the non-matching filter "7". -/
theorem c9_witness :
    computeTable mtStorage "" = .ok [] ∧ computeTable mtStorage "7" = .ok [] :=
  ⟨(c9_empty_or_nonmatching_filter_ok mtStorage).1,
   (c9_empty_or_nonmatching_filter_ok mtStorage).2.1 "7" [7] (by rfl) (by decide)⟩

/-- C10: a filter parameter containing a non-numeric token makes the single
entry point return a request error as its result value; no output rows are
ever produced for it. -/
theorem c10_malformed_filter_is_request_error
    (storage : List Slice) (fstr : String)
    (hbad : ∃ t ∈ tokensOf fstr, ∃ c ∈ t, c.isDigit = false) :
    computeTable storage fstr = .error "malformed filter: non-numeric token" ∧
    ∀ out, computeTable storage fstr ≠ .ok out := by
  have hp : parseTokens (tokensOf fstr) = none := by
    obtain ⟨t, ht, hc⟩ := hbad
    exact parseTokens_none ⟨t, ht, parseNatTok_none hc⟩
  have herr : computeTable storage fstr = .error "malformed filter: non-numeric token" := by
    unfold computeTable parseFilter
    rw [hp]
  refine ⟨herr, fun out h => ?_⟩
  rw [herr] at h
  exact Except.noConfusion h

/-- Witness for C10: the filter "1,a" is rejected. -/
theorem c10_witness :
    computeTable mtStorage "1,a" = .error "malformed filter: non-numeric token" :=
  (c10_malformed_filter_is_request_error mtStorage "1,a" (by decide)).1

end SliceLayout
